import Mathlib

/-!
# Verification of the mmore dispatch engine

Shallow embedding of the batch planner (`batch_list` in
`src/mmore/process/dispatcher.py`), the dispatch engine
(`Dispatcher.dispatch`, `Dispatcher._dispatch_local`) and the execution
state manager (`src/mmore/process/execution_state.py`), together with
theorems about the properties the specification states for them.

Costs are integers; the sentinel `-1` means "unsized" and such items are
dropped before batching, exactly as the source filters `item[1] != -1`.
-/

namespace Mmore

open List

variable {α : Type*}

/-! ## Stable descending sort

`items.sort(key=itemgetter(1), reverse=True)` is Python's stable sort,
descending on the cost component.  We embed it as the stable descending
insertion sort: an element passes over exactly the elements of strictly
larger cost, so equal-cost elements keep their original relative order. -/

/-- Insert `x` into `l` (assumed sorted by `cost` descending): `x` goes
before the first element whose cost is not strictly larger than `cost x`. -/
def insertDesc (cost : α → Int) (x : α) : List α → List α
  | [] => [x]
  | y :: ys => if cost x < cost y then y :: insertDesc cost x ys else x :: y :: ys

/-- Stable sort by `cost`, descending: the embedding of
`items.sort(key=itemgetter(1), reverse=True)`. -/
def sortDesc (cost : α → Int) : List α → List α
  | [] => []
  | x :: xs => insertDesc cost x (sortDesc cost xs)

/-! ## Best-fit selection (the inner `for i, batch_size in enumerate(...)` loop) -/

/-- The inner scan of `batch_list`: runs over the remaining batch sizes,
carrying the current index `i`, the running minimum `minRem`
(`min_remaining`, initialised to the capacity) and the best index so far
(`best_fit_idx`, where `none` stands for the source's `-1` sentinel). -/
def bestFitLoop (C size : Int) : List Int → Nat → Int → Option Nat → Option Nat
  | [], _, _, best => best
  | bs :: rest, i, minRem, best =>
    let remaining := C - (bs + size)
    if 0 ≤ remaining ∧ remaining < minRem then
      bestFitLoop C size rest (i + 1) remaining (some i)
    else
      bestFitLoop C size rest (i + 1) minRem best

/-- Embedding of the source's best-fit search: `findBestFit C size sizes` is
the index the inner loop leaves in `best_fit_idx` (`none` for `-1`),
starting from `min_remaining = C`. -/
def findBestFit (C size : Int) (sizes : List Int) : Option Nat :=
  bestFitLoop C size sizes 0 C none

/-! ## Batch construction -/

/-- Apply `f` at position `i` of a list (identity when `i` is out of range);
embeds the source's in-place updates `batches[best_fit_idx].append(obj)` and
`batch_sizes[best_fit_idx] += size`. -/
def modifyAt (f : β → β) : Nat → List β → List β
  | _, [] => []
  | 0, b :: bs => f b :: bs
  | n + 1, b :: bs => b :: modifyAt f n bs

/-- One iteration of the outer `for obj, size in items` loop of `batch_list`:
either append the item to the best-fitting batch, or open a new singleton
batch.  The state is the pair `(batches, batch_sizes)`. -/
def placeItem (C : Int) (st : List (List α) × List Int) (it : α × Int) :
    List (List α) × List Int :=
  match findBestFit C it.2 st.2 with
  | some i => (modifyAt (fun b => b ++ [it.1]) i st.1,
               modifyAt (fun s => s + it.2) i st.2)
  | none => (st.1 ++ [[it.1]], st.2 ++ [it.2])

/-- The batch planner `batch_list(lst, obj_batch_size, processor)` of
`dispatcher.py`: pair every object with its cost (`processor.get_file_len`),
drop the `-1`-cost (unsized) items, sort by cost descending (stable), then
place each item into the best-fitting open batch, starting from the state
`batches = [[]]`, `batch_sizes = [0]`. -/
def batch_list (cost : α → Int) (C : Int) (lst : List α) : List (List α) :=
  let items := (lst.map (fun o => (o, cost o))).filter (fun it => it.2 ≠ -1)
  let sorted := sortDesc (fun it => it.2) items
  (sorted.foldl (placeItem C) ([[]], [0])).1

/-! ## The best-fit rule as the specification words it

The spec (§4.3) says: "choose the best-fit open batch: the batch whose
remaining capacity (`C - aggregate`) is smallest among batches that can
still fit the item (remaining ≥ 0 after insertion)", with ties broken in
favour of the first such batch.  We render that directly: scan the open
batches, keep the first candidate that strictly improves the remaining
capacity, with candidacy being exactly "remaining after insertion ≥ 0". -/

/-- Is `remaining` strictly better than the best candidate so far? -/
def strictlyBetter (remaining : Int) : Option (Nat × Int) → Bool
  | none => true
  | some q => decide (remaining < q.2)

/-- Scan for the spec's best-fit batch: `best` carries the best candidate so
far together with its remaining capacity after insertion. -/
def bestFitSpecLoop (C size : Int) : List Int → Nat → Option (Nat × Int) → Option Nat
  | [], _, best => best.map (fun q => q.1)
  | bs :: rest, i, best =>
    let remaining := C - (bs + size)
    if 0 ≤ remaining ∧ strictlyBetter remaining best then
      bestFitSpecLoop C size rest (i + 1) (some (i, remaining))
    else
      bestFitSpecLoop C size rest (i + 1) best

/-- The specification's best-fit selection: first batch minimising remaining
capacity after insertion, among batches with remaining ≥ 0 after insertion. -/
def bestFitSpec (C size : Int) (sizes : List Int) : Option Nat :=
  bestFitSpecLoop C size sizes 0 none

/-- The amended best-fit selection: as `bestFitSpec`, but a batch is a
candidate only when its remaining capacity after insertion is `≥ 0` *and
strictly below `C`* (so a placement leaving the full capacity free — which
only happens when batch aggregate plus item cost is `≤ 0` — is never
chosen). -/
def bestFitAmendedLoop (C size : Int) : List Int → Nat → Option (Nat × Int) → Option Nat
  | [], _, best => best.map (fun q => q.1)
  | bs :: rest, i, best =>
    let remaining := C - (bs + size)
    if 0 ≤ remaining ∧ remaining < C ∧ strictlyBetter remaining best then
      bestFitAmendedLoop C size rest (i + 1) (some (i, remaining))
    else
      bestFitAmendedLoop C size rest (i + 1) best

/-- Amended spec selection, see `bestFitAmendedLoop`. -/
def bestFitAmended (C size : Int) (sizes : List Int) : Option Nat :=
  bestFitAmendedLoop C size sizes 0 none

/-- One placement step using the spec's best-fit rule. -/
def placeItemSpec (C : Int) (st : List (List α) × List Int) (it : α × Int) :
    List (List α) × List Int :=
  match bestFitSpec C it.2 st.2 with
  | some i => (modifyAt (fun b => b ++ [it.1]) i st.1,
               modifyAt (fun s => s + it.2) i st.2)
  | none => (st.1 ++ [[it.1]], st.2 ++ [it.2])

/-- One placement step using the amended best-fit rule. -/
def placeItemAmended (C : Int) (st : List (List α) × List Int) (it : α × Int) :
    List (List α) × List Int :=
  match bestFitAmended C it.2 st.2 with
  | some i => (modifyAt (fun b => b ++ [it.1]) i st.1,
               modifyAt (fun s => s + it.2) i st.2)
  | none => (st.1 ++ [[it.1]], st.2 ++ [it.2])

/-- Best-fit-decreasing batching exactly as the specification words it
(§4.3 steps 1–3): same filtering of unsized items and same stable
descending sort, but the spec's best-fit rule. -/
def bfdSpec (cost : α → Int) (C : Int) (lst : List α) : List (List α) :=
  let items := (lst.map (fun o => (o, cost o))).filter (fun it => it.2 ≠ -1)
  let sorted := sortDesc (fun it => it.2) items
  (sorted.foldl (placeItemSpec C) ([[]], [0])).1

/-- Best-fit-decreasing batching with the amended best-fit rule. -/
def bfdAmended (cost : α → Int) (C : Int) (lst : List α) : List (List α) :=
  let items := (lst.map (fun o => (o, cost o))).filter (fun it => it.2 ≠ -1)
  let sorted := sortDesc (fun it => it.2) items
  (sorted.foldl (placeItemAmended C) ([[]], [0])).1

/-- Invariant of the placement state `(batches, batch_sizes)`: the two
lists run in parallel and each tracked size is the aggregate cost of the
corresponding batch. -/
def SizesMatch (cost : α → Int) (st : List (List α) × List Int) : Prop :=
  st.1.length = st.2.length ∧ ∀ i, st.2.getD i 0 = ((st.1.getD i []).map cost).sum

/-- Soft-capacity invariant: every batch either has tracked aggregate at
most `C` or is a singleton. -/
def SoftCap (C : Int) (st : List (List α) × List Int) : Prop :=
  ∀ i, st.2.getD i 0 ≤ C ∨ (st.1.getD i []).length = 1

/-! ## The dispatch engine

`Dispatcher.dispatch` buckets the input per processor type, batches each
non-empty bucket with `batch_list` under the per-type capacity
`batch_multiplier * process_batch_sizes.get(name, 100)`, and hands the
resulting `(processor, batch)` tasks to the local or the distributed
execution path.  A processor type is modelled by its cost function
(`get_file_len`); running a processor on a batch is an abstract fallible
function. -/

/-- A processor type, reduced to what dispatching observes: its item-cost
function `get_file_len`. -/
structure ProcType (φ : Type*) where
  get_file_len : φ → Int

/-- The task-list construction inside `Dispatcher.dispatch`: for every
bucket with at least one file, batch it with `batch_list` under capacity
`mult * (psizes processor).getD 100` (the source's
`batch_multiplier * batch_sizes.get(processor.__name__, 100)`) and emit one
`(processor, batch)` task per batch. -/
def mkTaskLists {φ : Type*} (mult : Int) (psizes : ProcType φ → Option Int)
    (buckets : List (ProcType φ × List φ)) : List (ProcType φ × List φ) :=
  buckets.foldl
    (fun acc pf =>
      if 0 < pf.2.length then
        acc ++ (batch_list pf.1.get_file_len (mult * (psizes pf.1).getD 100) pf.2).map
          (fun b => (pf.1, b))
      else acc)
    []

/-- Embedding of `Dispatcher._dispatch_local`: run the tasks one after the other,
yielding the per-task results in order; a failing processor invocation
aborts the sequence (the generator raises when consumed). -/
def dispatch_local {φ ρ ε : Type*} (run : ProcType φ → List φ → Except ε ρ) :
    List (ProcType φ × List φ) → Except ε (List ρ)
  | [] => .ok []
  | t :: ts => do
    let r ← run t.1 t.2
    let rs ← dispatch_local run ts
    .ok (r :: rs)

/-- Modelled from the spec: `Dispatcher._dispatch_distributed` is absent
from `src/` (only its caller `dispatch` is present).  Per §4.4 it submits
every task to the cluster and yields per-task results **in completion
order, not submission order**, and a failing remote task is reported
per-task rather than aborting the dispatch.  Completion order is modelled
by an arbitrary ranking of the tasks (any permutation arises this way). -/
def dispatch_distributed {φ ρ ε : Type*} (runRemote : ProcType φ → List φ → Except ε ρ)
    (rank : ProcType φ × List φ → Int) (tasks : List (ProcType φ × List φ)) :
    List (Except ε ρ) :=
  (sortDesc rank tasks).map (fun t => runRemote t.1 t.2)

/-! ## The execution state manager (`execution_state.py`)

`ExecutionState` holds static fields `_use_dask : Optional[bool]`,
`_dask_var` (the dask `Variable`, modelled by its boolean cell) and
`_local_state : bool`.  Network interaction with the dask variable is
modelled by read/write outcome oracles of type `Except ε _`. -/

/-- The static state of `ExecutionState`. -/
structure ExecState where
  use_dask : Option Bool
  dask_var : Option Bool
  local_state : Bool
  deriving DecidableEq

/-- The state at process start: `_use_dask = None`, `_dask_var = None`,
`_local_state = False`. -/
def ExecState.start : ExecState := ⟨none, none, false⟩

/-- Errors `ExecutionState` raises itself. -/
inductive ESError where
  | alreadyInitialized
  | notInitialized
  | clientRequired
  deriving DecidableEq

/-- Embedding of `ExecutionState.initialize(distributed_mode, client)`:
fails when already initialised; in distributed mode asserts a client is
present and creates the shared variable set to `False`; in local mode
resets the local flag.  (The source sets `_use_dask` before the client
assert; that half-mutated state after a failed assert is observed by no
claim and is not modelled.) -/
def ExecState.initState (distributed_mode : Bool) (clientPresent : Bool)
    (st : ExecState) : Except ESError ExecState :=
  if st.use_dask ≠ none then .error .alreadyInitialized
  else if distributed_mode then
    if ¬clientPresent then .error .clientRequired
    else .ok ⟨some true, some false, st.local_state⟩
  else .ok ⟨some false, st.dask_var, false⟩

/-- Embedding of `ExecutionState.get_should_stop_execution()`: fails when not
initialised; in distributed mode reads the dask variable — a failing read
(`read = .error _`) is swallowed and reported as `True`; in local mode
returns the local flag.  `read` is the outcome of `_dask_var.get()`. -/
def ExecState.get_should_stop_execution {ε : Type*} (st : ExecState)
    (read : Except ε Bool) : Except ESError Bool :=
  match st.use_dask with
  | none => .error .notInitialized
  | some true =>
    match read with
    | .ok v => .ok v
    | .error _ => .ok true
  | some false => .ok st.local_state

/-- Embedding of `ExecutionState.set_should_stop_execution(value)`: fails when not
initialised; in distributed mode writes the dask variable with **no**
exception handling, so a failing write (`write = .error e`) propagates to
the caller; in local mode sets the local flag.  `write` is the outcome of
`_dask_var.set(value)`. -/
def ExecState.set_should_stop_execution {ε : Type*} (value : Bool) (st : ExecState)
    (write : Except ε Unit) : Except (ESError ⊕ ε) ExecState :=
  match st.use_dask with
  | none => .error (.inl .notInitialized)
  | some true =>
    match write with
    | .ok _ => .ok { st with dask_var := some value }
    | .error e => .error (.inr e)
  | some false => .ok { st with local_state := value }

/-! ## Supporting lemmas -/

theorem modifyAt_length {β : Type*} (f : β → β) (i : Nat) (l : List β) :
    (modifyAt f i l).length = l.length := by
  induction l generalizing i with
  | nil => cases i <;> rfl
  | cons b bs ih =>
    cases i with
    | zero => rfl
    | succ n => simpa [modifyAt] using ih n

theorem getD_modifyAt_self {β : Type*} (f : β → β) (i : Nat) (l : List β) (d : β)
    (h : i < l.length) : (modifyAt f i l).getD i d = f (l.getD i d) := by
  induction l generalizing i with
  | nil => simp at h
  | cons b bs ih =>
    cases i with
    | zero => rfl
    | succ n => simpa [modifyAt] using ih n (by simpa using h)

theorem getD_modifyAt_ne {β : Type*} (f : β → β) (i j : Nat) (l : List β) (d : β)
    (h : j ≠ i) : (modifyAt f i l).getD j d = l.getD j d := by
  induction l generalizing i j with
  | nil => cases i <;> rfl
  | cons b bs ih =>
    cases i with
    | zero =>
      cases j with
      | zero => exact absurd rfl h
      | succ m => rfl
    | succ n =>
      cases j with
      | zero => rfl
      | succ m => simpa [modifyAt] using ih n m (fun hc => h (by omega))

theorem getD_append_lt {β : Type*} (l l' : List β) (i : Nat) (d : β)
    (h : i < l.length) : (l ++ l').getD i d = l.getD i d := by
  induction l generalizing i with
  | nil => simp at h
  | cons b bs ih =>
    cases i with
    | zero => rfl
    | succ n => exact ih n (by simpa using h)

theorem getD_append_self {β : Type*} (l : List β) (x : β) (d : β) :
    (l ++ [x]).getD l.length d = x := by
  induction l with
  | nil => rfl
  | cons b bs ih => exact ih

theorem getD_of_length_le {β : Type*} (l : List β) (i : Nat) (d : β)
    (h : l.length ≤ i) : l.getD i d = d := by
  induction l generalizing i with
  | nil => cases i <;> rfl
  | cons b bs ih =>
    cases i with
    | zero => simp at h
    | succ n => simpa using ih n (by simpa using h)

theorem join_modifyAt_append (a : α) (i : Nat) (bs : List (List α))
    (h : i < bs.length) :
    (modifyAt (fun b => b ++ [a]) i bs).flatten ~ a :: bs.flatten := by
  induction bs generalizing i with
  | nil => simp at h
  | cons b rest ih =>
    cases i with
    | zero =>
      simp only [modifyAt, List.flatten_cons, List.append_assoc, List.singleton_append]
      exact List.perm_middle
    | succ n =>
      simp only [modifyAt, List.flatten_cons]
      calc b ++ (modifyAt (fun b => b ++ [a]) n rest).flatten
          ~ b ++ (a :: rest.flatten) :=
            (ih n (by simpa using h)).append_left b
        _ ~ a :: (b ++ rest.flatten) := List.perm_middle

theorem insertDesc_perm (cost : α → Int) (x : α) (l : List α) :
    insertDesc cost x l ~ x :: l := by
  induction l with
  | nil => exact List.Perm.refl _
  | cons y ys ih =>
    by_cases h : cost x < cost y
    · simp only [insertDesc, if_pos h]
      calc y :: insertDesc cost x ys
          ~ y :: x :: ys := ih.cons y
        _ ~ x :: y :: ys := List.Perm.swap x y ys
    · simp only [insertDesc, if_neg h]
      exact List.Perm.refl _

theorem sortDesc_perm (cost : α → Int) (l : List α) : sortDesc cost l ~ l := by
  induction l with
  | nil => exact List.Perm.refl _
  | cons x xs ih =>
    calc sortDesc cost (x :: xs)
        ~ x :: sortDesc cost xs := insertDesc_perm cost x (sortDesc cost xs)
      _ ~ x :: xs := ih.cons x

/-- Characterisation of the chosen index: whatever `bestFitLoop` reports,
beyond the incoming accumulator, is an in-range index whose remaining
capacity after insertion lies in `[0, m)` for the incoming minimum `m`. -/
theorem bestFitLoop_some (C size : Int) (l : List Int) (i0 : Nat) (m : Int)
    (b : Option Nat) (j : Nat) (hm : m ≤ C)
    (h : bestFitLoop C size l i0 m b = some j) :
    b = some j ∨ ∃ k, k < l.length ∧ j = i0 + k ∧
      0 ≤ C - (l.getD k 0 + size) ∧ C - (l.getD k 0 + size) < C := by
  induction l generalizing i0 m b with
  | nil => exact Or.inl h
  | cons bs rest ih =>
    simp only [bestFitLoop] at h
    by_cases hc : 0 ≤ C - (bs + size) ∧ C - (bs + size) < m
    · rw [if_pos hc] at h
      rcases ih (i0 + 1) _ (some i0) (le_of_lt (lt_of_lt_of_le hc.2 hm)) h with h1 | h2
      · obtain rfl : i0 = j := Option.some.inj h1
        refine Or.inr ⟨0, by simp, by omega, ?_, ?_⟩
        · simpa using hc.1
        · simpa using lt_of_lt_of_le hc.2 hm
      · rcases h2 with ⟨k, hk, hj, h0, hC⟩
        refine Or.inr ⟨k + 1, by simpa using hk, by omega, ?_, ?_⟩
        · simpa using h0
        · simpa using hC
    · rw [if_neg hc] at h
      rcases ih (i0 + 1) m b hm h with h1 | h2
      · exact Or.inl h1
      · rcases h2 with ⟨k, hk, hj, h0, hC⟩
        refine Or.inr ⟨k + 1, by simpa using hk, by omega, ?_, ?_⟩
        · simpa using h0
        · simpa using hC

/-- The index the source's inner loop selects is in range, and the chosen
batch really fits: remaining capacity after insertion lies in `[0, C)`. -/
theorem findBestFit_some (C size : Int) (sizes : List Int) (i : Nat)
    (h : findBestFit C size sizes = some i) :
    i < sizes.length ∧ 0 ≤ C - (sizes.getD i 0 + size) ∧
      C - (sizes.getD i 0 + size) < C := by
  rcases bestFitLoop_some C size sizes 0 C none i le_rfl h with h1 | h2
  · cases h1
  · rcases h2 with ⟨k, hk, hj, h0, hC⟩
    obtain rfl : i = k := by omega
    exact ⟨hk, h0, hC⟩

theorem placeItem_lengths (C : Int) (st : List (List α) × List Int) (it : α × Int)
    (h : st.1.length = st.2.length) :
    (placeItem C st it).1.length = (placeItem C st it).2.length := by
  unfold placeItem
  cases hf : findBestFit C it.2 st.2 with
  | none => simpa using h
  | some j => simpa [modifyAt_length] using h

theorem sizesMatch_placeItem (cost : α → Int) (C : Int)
    (st : List (List α) × List Int) (it : α × Int) (hit : it.2 = cost it.1)
    (h : SizesMatch cost st) : SizesMatch cost (placeItem C st it) := by
  obtain ⟨hlen, hagg⟩ := h
  unfold placeItem
  cases hf : findBestFit C it.2 st.2 with
  | none =>
    refine ⟨by simpa using hlen, fun i => ?_⟩
    rcases lt_trichotomy i st.1.length with hi | hi | hi
    · rw [getD_append_lt _ _ _ _ (hlen ▸ hi), getD_append_lt _ _ _ _ hi]
      exact hagg i
    · subst hi
      rw [show st.1.length = st.2.length from hlen, getD_append_self,
        ← (show st.1.length = st.2.length from hlen), getD_append_self]
      simp [hit]
    · rw [getD_of_length_le _ _ _ (by simpa using Nat.succ_le_of_lt (hlen ▸ hi)),
        getD_of_length_le _ _ _ (by simpa using Nat.succ_le_of_lt hi)]
      simp
  | some j =>
    obtain ⟨hj, -, -⟩ := findBestFit_some C it.2 st.2 j hf
    refine ⟨by simpa [modifyAt_length] using hlen, fun i => ?_⟩
    by_cases hij : i = j
    · subst hij
      rw [getD_modifyAt_self _ _ _ _ hj, getD_modifyAt_self _ _ _ _ (hlen ▸ hj)]
      rw [hagg i, hit]
      simp [List.map_append]
    · rw [getD_modifyAt_ne _ _ _ _ _ hij, getD_modifyAt_ne _ _ _ _ _ hij]
      exact hagg i

theorem softCap_placeItem (C : Int) (st : List (List α) × List Int) (it : α × Int)
    (hC : 0 ≤ C) (hlen : st.1.length = st.2.length)
    (h : SoftCap C st) : SoftCap C (placeItem C st it) := by
  unfold placeItem
  cases hf : findBestFit C it.2 st.2 with
  | none =>
    intro i
    rcases lt_trichotomy i st.1.length with hi | hi | hi
    · rw [getD_append_lt _ _ _ _ (hlen ▸ hi), getD_append_lt _ _ _ _ hi]
      exact h i
    · subst hi
      refine Or.inr ?_
      rw [getD_append_self]
      rfl
    · rw [getD_of_length_le _ _ _ (by simpa using Nat.succ_le_of_lt (hlen ▸ hi))]
      exact Or.inl hC
  | some j =>
    obtain ⟨hj, hfit, -⟩ := findBestFit_some C it.2 st.2 j hf
    intro i
    by_cases hij : i = j
    · subst hij
      refine Or.inl ?_
      rw [getD_modifyAt_self _ _ _ _ hj]
      omega
    · rw [getD_modifyAt_ne _ _ _ _ _ hij, getD_modifyAt_ne _ _ _ _ _ hij]
      exact h i

/-- The placement fold preserves the aggregate-tracking and soft-capacity
invariants, provided every folded item carries its own cost. -/
theorem foldl_place_inv (cost : α → Int) (C : Int) (hC : 0 ≤ C) :
    ∀ (items : List (α × Int)) (st : List (List α) × List Int),
      (∀ it ∈ items, it.2 = cost it.1) → SizesMatch cost st → SoftCap C st →
      SizesMatch cost (items.foldl (placeItem C) st) ∧
        SoftCap C (items.foldl (placeItem C) st) := by
  intro items
  induction items with
  | nil => exact fun st _ h1 h2 => ⟨h1, h2⟩
  | cons it rest ih =>
    intro st hits h1 h2
    have h1' := sizesMatch_placeItem cost C st it (hits it (by simp)) h1
    have h2' := softCap_placeItem C st it hC h1.1 h2
    simpa using ih (placeItem C st it) (fun x hx => hits x (by simp [hx])) h1' h2'

theorem exists_getD_of_mem {β : Type*} (l : List β) (b : β) (d : β) (h : b ∈ l) :
    ∃ i, i < l.length ∧ l.getD i d = b := by
  induction l with
  | nil => simp at h
  | cons x xs ih =>
    rcases List.mem_cons.mp h with rfl | hx
    · exact ⟨0, by simp, rfl⟩
    · obtain ⟨i, hi, hgd⟩ := ih hx
      exact ⟨i + 1, by simpa using hi, by simpa using hgd⟩

/-- Every element of the stable descending sort of the cost-paired,
unsized-filtered items is a pair of an original bucket element with its own
cost, and that cost is not the unsized sentinel. -/
theorem mem_sorted_items (cost : α → Int) (lst : List α) (it : α × Int)
    (h : it ∈ sortDesc (fun it => it.2)
      ((lst.map (fun o => (o, cost o))).filter (fun it => it.2 ≠ -1))) :
    it.1 ∈ lst ∧ it.2 = cost it.1 ∧ it.2 ≠ -1 := by
  have h1 := (sortDesc_perm (fun it : α × Int => it.2) _).mem_iff.mp h
  obtain ⟨h2, h3⟩ := List.mem_filter.mp h1
  obtain ⟨o, ho, rfl⟩ := List.mem_map.mp h2
  exact ⟨ho, rfl, by simpa using h3⟩

/-- Projecting the cost-paired, unsized-filtered items back to the objects
gives exactly the sized elements of the bucket, in order. -/
theorem items_map_fst (cost : α → Int) (lst : List α) :
    ((lst.map (fun o => (o, cost o))).filter (fun it => it.2 ≠ -1)).map
        (fun it => it.1) =
      lst.filter (fun o => cost o ≠ -1) := by
  induction lst with
  | nil => rfl
  | cons o rest ih =>
    by_cases h : cost o = -1
    · simpa [List.filter_cons, h] using ih
    · simpa [List.filter_cons, h] using ih

/-- The placement fold only ever adds items to batches: the concatenation
of all batches after the fold is a permutation of the concatenation before
plus the folded objects. -/
theorem foldl_place_flatten (C : Int) :
    ∀ (items : List (α × Int)) (st : List (List α) × List Int),
      st.1.length = st.2.length →
      (items.foldl (placeItem C) st).1.flatten ~
        st.1.flatten ++ items.map (fun it => it.1) := by
  intro items
  induction items with
  | nil => intro st _; simp
  | cons it rest ih =>
    intro st hlen
    have hlen' := placeItem_lengths C st it hlen
    have hrec := ih (placeItem C st it) hlen'
    have hstep : (placeItem C st it).1.flatten ~ it.1 :: st.1.flatten := by
      unfold placeItem
      cases hf : findBestFit C it.2 st.2 with
      | none =>
        simp only [List.flatten_append, List.flatten_cons, List.flatten_nil,
          List.append_nil]
        exact List.perm_append_singleton it.1 st.1.flatten
      | some j =>
        obtain ⟨hj, -, -⟩ := findBestFit_some C it.2 st.2 j hf
        exact join_modifyAt_append it.1 j st.1 (hlen ▸ hj)
    calc ((it :: rest).foldl (placeItem C) st).1.flatten
        ~ (placeItem C st it).1.flatten ++ rest.map (fun it => it.1) := hrec
      _ ~ (it.1 :: st.1.flatten) ++ rest.map (fun it => it.1) :=
          hstep.append_right _
      _ ~ st.1.flatten ++ it.1 :: rest.map (fun it => it.1) :=
          List.perm_middle.symm
      _ = st.1.flatten ++ (it :: rest).map (fun it => it.1) := by simp

/-- The placement fold never removes a batch and adds at most one batch
per item. -/
theorem foldl_place_length_bounds (C : Int) :
    ∀ (items : List (α × Int)) (st : List (List α) × List Int),
      st.1.length ≤ (items.foldl (placeItem C) st).1.length ∧
        (items.foldl (placeItem C) st).1.length ≤ st.1.length + items.length := by
  intro items
  induction items with
  | nil => intro st; simp
  | cons it rest ih =>
    intro st
    have hstep : st.1.length ≤ (placeItem C st it).1.length ∧
        (placeItem C st it).1.length ≤ st.1.length + 1 := by
      unfold placeItem
      cases findBestFit C it.2 st.2 with
      | none => simp
      | some j => simp [modifyAt_length]
    obtain ⟨h1, h2⟩ := ih (placeItem C st it)
    constructor
    · exact le_trans hstep.1 h1
    · calc ((it :: rest).foldl (placeItem C) st).1.length
          ≤ (placeItem C st it).1.length + rest.length := h2
        _ ≤ st.1.length + 1 + rest.length := by omega
        _ = st.1.length + (it :: rest).length := by simp; omega

/-- If no folded item can enter an aggregate-zero batch (every cost is
above the capacity or non-positive), the placement fold keeps the leading
empty batch of the initial state intact. -/
theorem foldl_place_head_empty (C : Int) :
    ∀ (items : List (α × Int)) (st : List (List α) × List Int),
      (∀ it ∈ items, C < it.2 ∨ it.2 ≤ 0) →
      st.1.length = st.2.length →
      (∃ t, st.1 = [] :: t) → (∃ u, st.2 = 0 :: u) →
      ∃ t, (items.foldl (placeItem C) st).1 = [] :: t := by
  intro items
  induction items with
  | nil => intro st _ _ h _; exact h
  | cons it rest ih =>
    intro st hits hlen h1 h2
    obtain ⟨t, ht⟩ := h1
    obtain ⟨u, hu⟩ := h2
    have hstep : (∃ t', (placeItem C st it).1 = [] :: t') ∧
        (∃ u', (placeItem C st it).2 = 0 :: u') := by
      unfold placeItem
      cases hf : findBestFit C it.2 st.2 with
      | none => exact ⟨⟨t ++ [[it.1]], by rw [ht]; rfl⟩, ⟨u ++ [it.2], by rw [hu]; rfl⟩⟩
      | some j =>
        obtain ⟨hj, hfit, hlt⟩ := findBestFit_some C it.2 st.2 j hf
        cases j with
        | zero =>
          exfalso
          rw [hu] at hfit hlt
          simp only [List.getD_cons_zero] at hfit hlt
          rcases hits it (by simp) with hbig | hnp <;> omega
        | succ m =>
          exact ⟨⟨modifyAt (fun b => b ++ [it.1]) m t, by rw [ht]; rfl⟩,
            ⟨modifyAt (fun s => s + it.2) m u, by rw [hu]; rfl⟩⟩
    exact ih (placeItem C st it) (fun x hx => hits x (by simp [hx]))
      (placeItem_lengths C st it hlen) hstep.1 hstep.2

/-- With every item unsized, `batch_list` returns exactly the initial
single empty batch. -/
theorem batch_list_all_unsized (cost : α → Int) (C : Int) (lst : List α)
    (h : ∀ x ∈ lst, cost x = -1) : batch_list cost C lst = [[]] := by
  unfold batch_list
  have hfil : (lst.map (fun o => (o, cost o))).filter (fun it => it.2 ≠ -1) = [] := by
    rw [List.filter_eq_nil_iff]
    intro it hit
    obtain ⟨o, ho, rfl⟩ := List.mem_map.mp hit
    simpa using h o ho
  rw [hfil]
  rfl

/-- With all buckets empty, `dispatch` builds no tasks at all. -/
theorem mkTaskLists_all_empty {φ : Type*} (mult : Int)
    (psizes : ProcType φ → Option Int) (buckets : List (ProcType φ × List φ))
    (h : ∀ pf ∈ buckets, pf.2 = []) :
    mkTaskLists mult psizes buckets = [] := by
  unfold mkTaskLists
  suffices haux : ∀ acc, buckets.foldl
      (fun acc pf =>
        if 0 < pf.2.length then
          acc ++ (batch_list pf.1.get_file_len (mult * (psizes pf.1).getD 100) pf.2).map
            (fun b => (pf.1, b))
        else acc) acc = acc by
    exact haux []
  induction buckets with
  | nil => intro acc; rfl
  | cons pf rest ih =>
    intro acc
    have hempty : pf.2 = [] := h pf (by simp)
    rw [List.foldl_cons, if_neg (by rw [hempty]; simp)]
    exact ih (fun x hx => h x (by simp [hx])) acc

/-- A non-empty bucket whose files are all unsized produces exactly one
task, whose batch is empty: the zero-file task of claim C9. -/
theorem mkTaskLists_singleton_unsized {φ : Type*} (mult : Int)
    (psizes : ProcType φ → Option Int) (p : ProcType φ) (files : List φ)
    (hne : files ≠ []) (h : ∀ x ∈ files, p.get_file_len x = -1) :
    mkTaskLists mult psizes [(p, files)] = [(p, [])] := by
  unfold mkTaskLists
  rw [List.foldl_cons, if_pos (by exact List.length_pos.mpr hne),
    batch_list_all_unsized _ _ _ h]
  rfl

/-- The source's inner loop agrees with the amended spec loop: the
accumulator pair "running minimum still at `C`, no index" corresponds to
"no candidate yet", and "running minimum `m < C` with index `j`"
corresponds to "best candidate `(j, m)`". -/
theorem bestFitLoop_eq_amendedLoop (C size : Int) :
    ∀ (l : List Int) (i : Nat),
      bestFitLoop C size l i C none = bestFitAmendedLoop C size l i none ∧
      ∀ (j : Nat) (m : Int), m < C →
        bestFitLoop C size l i m (some j) = bestFitAmendedLoop C size l i (some (j, m)) := by
  intro l
  induction l with
  | nil => exact fun i => ⟨rfl, fun j m _ => rfl⟩
  | cons bs rest ih =>
    intro i
    constructor
    · show (if 0 ≤ C - (bs + size) ∧ C - (bs + size) < C then
          bestFitLoop C size rest (i + 1) (C - (bs + size)) (some i)
        else bestFitLoop C size rest (i + 1) C none) =
        (if 0 ≤ C - (bs + size) ∧ C - (bs + size) < C ∧
            strictlyBetter (C - (bs + size)) none = true then
          bestFitAmendedLoop C size rest (i + 1) (some (i, C - (bs + size)))
        else bestFitAmendedLoop C size rest (i + 1) none)
      by_cases hc : 0 ≤ C - (bs + size) ∧ C - (bs + size) < C
      · rw [if_pos hc, if_pos ⟨hc.1, hc.2, rfl⟩]
        exact (ih (i + 1)).2 i (C - (bs + size)) hc.2
      · rw [if_neg hc, if_neg (fun hx => hc ⟨hx.1, hx.2.1⟩)]
        exact (ih (i + 1)).1
    · intro j m hm
      show (if 0 ≤ C - (bs + size) ∧ C - (bs + size) < m then
          bestFitLoop C size rest (i + 1) (C - (bs + size)) (some i)
        else bestFitLoop C size rest (i + 1) m (some j)) =
        (if 0 ≤ C - (bs + size) ∧ C - (bs + size) < C ∧
            strictlyBetter (C - (bs + size)) (some (j, m)) = true then
          bestFitAmendedLoop C size rest (i + 1) (some (i, C - (bs + size)))
        else bestFitAmendedLoop C size rest (i + 1) (some (j, m)))
      by_cases hc : 0 ≤ C - (bs + size) ∧ C - (bs + size) < m
      · rw [if_pos hc, if_pos ⟨hc.1, lt_trans hc.2 hm, by
          simpa [strictlyBetter] using hc.2⟩]
        exact (ih (i + 1)).2 i (C - (bs + size)) (lt_trans hc.2 hm)
      · rw [if_neg hc, if_neg (fun hx => hc ⟨hx.1, by
          have := hx.2.2
          simpa [strictlyBetter] using this⟩)]
        exact (ih (i + 1)).2 j m hm

/-- The source's best-fit selection equals the amended spec selection. -/
theorem findBestFit_eq_bestFitAmended (C size : Int) (sizes : List Int) :
    findBestFit C size sizes = bestFitAmended C size sizes :=
  (bestFitLoop_eq_amendedLoop C size sizes 0).1

theorem placeItem_eq_placeItemAmended (C : Int) (st : List (List α) × List Int)
    (it : α × Int) : placeItem C st it = placeItemAmended C st it := by
  unfold placeItem placeItemAmended
  rw [findBestFit_eq_bestFitAmended]

/-- The whole batch planner equals best-fit-decreasing with the amended
candidate rule, on every input. -/
theorem batch_list_eq_bfdAmended (cost : α → Int) (C : Int) (lst : List α) :
    batch_list cost C lst = bfdAmended cost C lst := by
  unfold batch_list bfdAmended
  suffices haux : ∀ (items : List (α × Int)) (st : List (List α) × List Int),
      items.foldl (placeItem C) st = items.foldl (placeItemAmended C) st by
    exact congrArg Prod.fst (haux _ _)
  intro items
  induction items with
  | nil => intro st; rfl
  | cons it rest ihx =>
    intro st
    rw [List.foldl_cons, List.foldl_cons, placeItem_eq_placeItemAmended]
    exact ihx (placeItemAmended C st it)

/-- A successful initialisation records the requested mode in `_use_dask`. -/
theorem initState_ok_use_dask (d c : Bool) (st0 st : ExecState)
    (h : ExecState.initState d c st0 = .ok st) : st.use_dask = some d := by
  unfold ExecState.initState at h
  by_cases h0 : st0.use_dask ≠ none
  · rw [if_pos h0] at h
    cases h
  · rw [if_neg h0] at h
    cases d with
    | false =>
      simp only [Bool.false_eq_true, if_false] at h
      cases h
      rfl
    | true =>
      simp only [if_true] at h
      cases c with
      | false => simp at h
      | true =>
        simp only [not_true, if_false, if_neg] at h
        cases h
        rfl

/-- Initialising a state whose `_use_dask` is already set fails with the
already-initialised error, whatever the arguments. -/
theorem initState_already (d c : Bool) (st : ExecState)
    (h : st.use_dask ≠ none) :
    ExecState.initState d c st = .error .alreadyInitialized := by
  unfold ExecState.initState
  rw [if_pos h]

/-! ## Claim theorems -/

/-- C1: for every bucket, cost function and capacity `C > 0`, every batch
produced by the batch planner `batch_list` either has aggregate cost of its
members at most `C` or contains exactly one item — capacity is a soft upper
bound, never a hard rejection. -/
theorem C1_batch_list_soft_capacity (cost : α → Int) (C : Int) (lst : List α)
    (hC : 0 < C) :
    ∀ b ∈ batch_list cost C lst, (b.map cost).sum ≤ C ∨ b.length = 1 := by
  intro b hb
  have hrfl : batch_list cost C lst =
      ((sortDesc (fun it => it.2)
          ((lst.map (fun o => (o, cost o))).filter (fun it => it.2 ≠ -1))).foldl
        (placeItem C) ([[]], [0])).1 := rfl
  rw [hrfl] at hb
  have hinv := foldl_place_inv cost C (le_of_lt hC)
    (sortDesc (fun it => it.2)
      ((lst.map (fun o => (o, cost o))).filter (fun it => it.2 ≠ -1)))
    ([[]], [0])
    (fun it hit => (mem_sorted_items cost lst it hit).2.1)
    (by unfold SizesMatch; exact ⟨rfl, fun i => by cases i <;> simp⟩)
    (by unfold SoftCap; intro i; exact Or.inl (by cases i <;> simpa using le_of_lt hC))
  obtain ⟨i, hi, hgd⟩ := exists_getD_of_mem _ b [] hb
  rcases hinv.2 i with h | h
  · rw [hinv.1.2 i, hgd] at h
    exact Or.inl h
  · rw [hgd] at h
    exact Or.inr h

/-- C1 witness: the soft-capacity invariant at the spec's concrete
scenario. -/
theorem C1_witness :
    (0 : Int) < 100 ∧
      ∀ b ∈ batch_list (fun x : Int => x) 100 [90, 60, 40, 30],
        (b.map (fun x : Int => x)).sum ≤ 100 ∨ b.length = 1 :=
  ⟨by decide,
    C1_batch_list_soft_capacity (fun x => x) 100 [90, 60, 40, 30] (by decide)⟩

/-- C2: the multiset of items across all batches returned by `batch_list`
equals the multiset of the bucket's items minus exactly the items whose
cost is the unsized sentinel `-1`: no sized item is duplicated or lost. -/
theorem C2_batch_list_item_preservation (cost : α → Int) (C : Int) (lst : List α) :
    (↑(batch_list cost C lst).flatten : Multiset α) =
      ↑(lst.filter (fun o => cost o ≠ -1)) := by
  rw [Multiset.coe_eq_coe]
  have hrfl : batch_list cost C lst =
      ((sortDesc (fun it => it.2)
          ((lst.map (fun o => (o, cost o))).filter (fun it => it.2 ≠ -1))).foldl
        (placeItem C) ([[]], [0])).1 := rfl
  rw [hrfl]
  calc ((sortDesc (fun it => it.2)
        ((lst.map (fun o => (o, cost o))).filter (fun it => it.2 ≠ -1))).foldl
          (placeItem C) ([[]], [0])).1.flatten
      ~ ([[]] : List (List α)).flatten ++
          (sortDesc (fun it => it.2)
            ((lst.map (fun o => (o, cost o))).filter (fun it => it.2 ≠ -1))).map
            (fun it => it.1) :=
        foldl_place_flatten C _ ([[]], [0]) rfl
    _ = (sortDesc (fun it => it.2)
          ((lst.map (fun o => (o, cost o))).filter (fun it => it.2 ≠ -1))).map
          (fun it => it.1) := by simp
    _ ~ ((lst.map (fun o => (o, cost o))).filter (fun it => it.2 ≠ -1)).map
          (fun it => it.1) :=
        (sortDesc_perm (fun it : α × Int => it.2) _).map _
    _ = lst.filter (fun o => cost o ≠ -1) := items_map_fst cost lst

/-- C3 counterexample: on the bucket `[0]` with capacity `1`, the source's
selection (running minimum initialised to the capacity) refuses the empty
batch — remaining after insertion would equal the full capacity — while the
spec's rule (any batch with remaining ≥ 0 after insertion is a candidate)
places the item there, so `batch_list` differs from the spec's best-fit-
decreasing. -/
theorem C3_counterexample :
    batch_list (fun x : Int => x) 1 [0] ≠ bfdSpec (fun x : Int => x) 1 [0] ∧
      batch_list (fun x : Int => x) 1 [0] = [[], [0]] ∧
      bfdSpec (fun x : Int => x) 1 [0] = [[0]] := by decide

/-- C3 (amended): `batch_list` implements best-fit-decreasing with the
same stable descending sort, but a batch is a candidate for an item only
when its remaining capacity after insertion is `≥ 0` **and strictly below
`C`**; among candidates it takes the first batch minimising the remaining
capacity, and opens a new singleton batch when no candidate exists. -/
theorem C3_batch_list_amended_best_fit (cost : α → Int) (C : Int) (lst : List α) :
    batch_list cost C lst = bfdAmended cost C lst :=
  batch_list_eq_bfdAmended cost C lst

/-- C4: with every bucket empty, dispatch builds zero tasks and both the
local and the distributed execution paths return an empty result sequence
without error. -/
theorem C4_dispatch_empty {φ ρ ε : Type*} (mult : Int)
    (psizes : ProcType φ → Option Int) (buckets : List (ProcType φ × List φ))
    (run runRemote : ProcType φ → List φ → Except ε ρ)
    (rank : ProcType φ × List φ → Int)
    (h : ∀ pf ∈ buckets, pf.2 = []) :
    mkTaskLists mult psizes buckets = [] ∧
      dispatch_local run (mkTaskLists mult psizes buckets) = .ok [] ∧
      dispatch_distributed runRemote rank (mkTaskLists mult psizes buckets) = [] := by
  have h0 := mkTaskLists_all_empty mult psizes buckets h
  refine ⟨h0, ?_, ?_⟩ <;> rw [h0] <;> rfl

/-- C4 witness: empty dispatch at concrete types. -/
theorem C4_witness :
    mkTaskLists 1 (fun _ => none) ([] : List (ProcType Unit × List Unit)) = [] ∧
      dispatch_local (fun _ _ => (.ok 0 : Except Unit Nat))
        (mkTaskLists 1 (fun _ => none) ([] : List (ProcType Unit × List Unit))) =
        .ok [] ∧
      dispatch_distributed (fun _ _ => (.ok 0 : Except Unit Nat)) (fun _ => 0)
        (mkTaskLists 1 (fun _ => none) ([] : List (ProcType Unit × List Unit))) =
        [] :=
  C4_dispatch_empty 1 (fun _ => none) [] (fun _ _ => .ok 0) (fun _ _ => .ok 0)
    (fun _ => 0) (fun pf hpf => absurd hpf (List.not_mem_nil pf))

/-- C5 counterexample: the batch count of `batch_list` is not monotone in
the capacity — this fixed 12-item bucket packs into 4 batches at capacity
87 but into 5 batches at the larger capacity 88. -/
theorem C5_counterexample :
    (0 : Int) < 87 ∧ (87 : Int) ≤ 88 ∧
      (batch_list (fun x : Int => x) 87
          [45, 45, 43, 28, 26, 25, 22, 21, 18, 17, 17, 16]).length = 4 ∧
      (batch_list (fun x : Int => x) 88
          [45, 45, 43, 28, 26, 25, 22, 21, 18, 17, 17, 16]).length = 5 := by decide

/-- C5 (amended): the batch count is not monotonically non-increasing in
the capacity (best-fit-decreasing has capacity anomalies); what holds for a
fixed input at every capacity is that the count lies between 1 and the
number of sized items plus one. -/
theorem C5_batch_count_bounds (cost : α → Int) (C : Int) (lst : List α) :
    1 ≤ (batch_list cost C lst).length ∧
      (batch_list cost C lst).length ≤
        (lst.filter (fun o => cost o ≠ -1)).length + 1 := by
  have hrfl : batch_list cost C lst =
      ((sortDesc (fun it => it.2)
          ((lst.map (fun o => (o, cost o))).filter (fun it => it.2 ≠ -1))).foldl
        (placeItem C) ([[]], [0])).1 := rfl
  have hb := foldl_place_length_bounds C
    (sortDesc (fun it => it.2)
      ((lst.map (fun o => (o, cost o))).filter (fun it => it.2 ≠ -1)))
    ([[]], [0])
  have hlen1 : (sortDesc (fun it : α × Int => it.2)
      ((lst.map (fun o => (o, cost o))).filter (fun it => it.2 ≠ -1))).length =
      ((lst.map (fun o => (o, cost o))).filter (fun it => it.2 ≠ -1)).length :=
    (sortDesc_perm (fun it : α × Int => it.2) _).length_eq
  have hlen2 : ((lst.map (fun o => (o, cost o))).filter
      (fun it => it.2 ≠ -1)).length = (lst.filter (fun o => cost o ≠ -1)).length := by
    have h := congrArg List.length (items_map_fst cost lst)
    simpa using h
  rw [hrfl]
  obtain ⟨h1, h2⟩ := hb
  constructor
  · simpa using h1
  · simp only [List.length_cons, List.length_nil] at h2
    omega

/-- C6: on the spec's concrete scenario — costs 90, 60, 40, 30 with
capacity 100 — `batch_list` returns exactly the three batches `[90]`,
`[60, 40]` and `[30]`, with aggregates 90, 100 and 30. -/
theorem C6_concrete_scenario :
    batch_list (fun x : Int => x) 100 [90, 60, 40, 30] = [[90], [60, 40], [30]] ∧
      (batch_list (fun x : Int => x) 100 [90, 60, 40, 30]).map (fun b => b.sum) =
        [90, 100, 30] := by decide

/-- C7: initialising the execution state a second time after a successful
initialisation fails with the already-initialised error, and reading or
writing the stop flag before any initialisation fails with the
not-initialised error. -/
theorem C7_execution_state_lifecycle :
    (∀ (d c d2 c2 : Bool) (st : ExecState),
        ExecState.initState d c ExecState.start = .ok st →
        ExecState.initState d2 c2 st = .error .alreadyInitialized) ∧
      (∀ (ε : Type) (read : Except ε Bool),
        ExecState.get_should_stop_execution ExecState.start read =
          .error .notInitialized) ∧
      (∀ (ε : Type) (v : Bool) (write : Except ε Unit),
        ExecState.set_should_stop_execution v ExecState.start write =
          .error (.inl .notInitialized)) := by
  refine ⟨?_, ?_, ?_⟩
  · intro d c d2 c2 st h
    exact initState_already d2 c2 st (by rw [initState_ok_use_dask d c _ st h]; simp)
  · intro ε read
    rfl
  · intro ε v write
    rfl

/-- C7 witness: concrete lifecycle errors. -/
theorem C7_witness :
    ExecState.initState true true ⟨some false, none, false⟩ =
        .error .alreadyInitialized ∧
      ExecState.get_should_stop_execution ExecState.start
          (.ok true : Except Unit Bool) = .error .notInitialized ∧
      ExecState.set_should_stop_execution true ExecState.start
          (.ok () : Except Unit Unit) = .error (.inl .notInitialized) :=
  ⟨C7_execution_state_lifecycle.1 false true true true ⟨some false, none, false⟩
      (by rfl),
    C7_execution_state_lifecycle.2.1 Unit (.ok true),
    C7_execution_state_lifecycle.2.2 Unit true (.ok ())⟩

/-- C8: after a successful distributed initialisation, every call of
get_should_stop_execution whose cluster read fails returns `True`
(fail-safe toward stopping), and no read outcome makes it surface an
error. -/
theorem C8_get_fail_safe (st0 st : ExecState)
    (h : ExecState.initState true true st0 = .ok st) (ε : Type)
    (read : Except ε Bool) :
    (∀ e : ε, read = .error e →
        ExecState.get_should_stop_execution st read = .ok true) ∧
      ∃ b, ExecState.get_should_stop_execution st read = .ok b := by
  have hud := initState_ok_use_dask true true st0 st h
  unfold ExecState.get_should_stop_execution
  rw [hud]
  constructor
  · intro e he
    subst he
    rfl
  · cases read with
    | ok v => exact ⟨v, rfl⟩
    | error e => exact ⟨true, rfl⟩

/-- C8 witness: a failed cluster read yields `True`. -/
theorem C8_witness :
    ExecState.get_should_stop_execution ⟨some true, some false, false⟩
        (.error () : Except Unit Bool) = .ok true :=
  (C8_get_fail_safe ExecState.start ⟨some true, some false, false⟩ (by rfl) Unit
      (.error ())).1 () rfl

/-- C9 counterexample: on the bucket `[5, 3]` with capacity `4`, the first
item in descending order (cost 5) cannot be placed into the initial empty
batch, yet the returned list contains no empty batch — the later item of
cost 3 fills it — refuting the claim's "whenever the first item cannot be
placed into that empty batch, the initial empty batch survives". -/
theorem C9_counterexample :
    findBestFit 4 5 [0] = none ∧
      batch_list (fun x : Int => x) 4 [5, 3] = [[3], [5]] ∧
      [] ∉ batch_list (fun x : Int => x) 4 [5, 3] := by decide

/-- C9 (amended): `batch_list` initialises its open-batch list with one
empty batch of aggregate 0, and whenever **no** sized item can enter an
aggregate-zero batch — every sized cost exceeds `C` or is non-positive (in
particular when every sized cost exceeds `C`, or when every cost is the
unsized sentinel `-1` so no sized item remains) — the initial empty batch
survives into the returned list; moreover a non-empty all-unsized bucket
makes dispatch create a task with zero files. -/
theorem C9_empty_batch_survival :
    (∀ (β : Type) (cost : β → Int) (C : Int) (lst : List β),
        (∀ x ∈ lst, cost x ≠ -1 → (C < cost x ∨ cost x ≤ 0)) →
        [] ∈ batch_list cost C lst) ∧
      (∀ (φ : Type) (mult : Int) (psizes : ProcType φ → Option Int)
          (p : ProcType φ) (files : List φ), files ≠ [] →
          (∀ x ∈ files, p.get_file_len x = -1) →
          mkTaskLists mult psizes [(p, files)] = [(p, [])]) := by
  constructor
  · intro β cost C lst h
    have hits : ∀ it ∈ sortDesc (fun it : β × Int => it.2)
        ((lst.map (fun o => (o, cost o))).filter (fun it => it.2 ≠ -1)),
        C < it.2 ∨ it.2 ≤ 0 := by
      intro it hit
      obtain ⟨hmem, hcost, hne⟩ := mem_sorted_items cost lst it hit
      rw [hcost]
      exact h it.1 hmem (hcost ▸ hne)
    have hsur := foldl_place_head_empty C
      (sortDesc (fun it : β × Int => it.2)
        ((lst.map (fun o => (o, cost o))).filter (fun it => it.2 ≠ -1)))
      ([[]], [0]) hits rfl ⟨[], rfl⟩ ⟨[], rfl⟩
    obtain ⟨t, ht⟩ := hsur
    have hrfl : batch_list cost C lst =
        ((sortDesc (fun it => it.2)
            ((lst.map (fun o => (o, cost o))).filter (fun it => it.2 ≠ -1))).foldl
          (placeItem C) ([[]], [0])).1 := rfl
    rw [hrfl, ht]
    exact List.mem_cons_self _ _
  · intro φ mult psizes p files hne h
    exact mkTaskLists_singleton_unsized mult psizes p files hne h

/-- C9 witness: concrete surviving empty batch and zero-file task. -/
theorem C9_witness :
    [] ∈ batch_list (fun x : Int => x) 4 [5, 9] ∧
      mkTaskLists 1 (fun _ => none)
          [((⟨fun _ => -1⟩ : ProcType Unit), [()])] =
        [((⟨fun _ => -1⟩ : ProcType Unit), [])] :=
  ⟨C9_empty_batch_survival.1 Int (fun x => x) 4 [5, 9] (by decide),
    C9_empty_batch_survival.2 Unit 1 (fun _ => none) ⟨fun _ => -1⟩ [()]
      (by decide) (by decide)⟩

/-- C10: after a successful distributed initialisation,
set_should_stop_execution does not fail safe — a failing cluster write
propagates its error to the caller — unlike get_should_stop_execution,
which converts a failing read to `True`. -/
theorem C10_set_propagates (st0 st : ExecState)
    (h : ExecState.initState true true st0 = .ok st) (ε : Type) (v : Bool)
    (e : ε) :
    ExecState.set_should_stop_execution v st (.error e) = .error (.inr e) ∧
      ExecState.get_should_stop_execution st (.error e : Except ε Bool) =
        .ok true := by
  have hud := initState_ok_use_dask true true st0 st h
  unfold ExecState.set_should_stop_execution ExecState.get_should_stop_execution
  rw [hud]
  exact ⟨rfl, rfl⟩

/-- C10 witness: a failed cluster write propagates. -/
theorem C10_witness :
    ExecState.set_should_stop_execution true ⟨some true, some false, false⟩
        (.error () : Except Unit Unit) = .error (.inr ()) :=
  (C10_set_propagates ExecState.start ⟨some true, some false, false⟩ (by rfl)
      Unit true ()).1

end Mmore
